import Mathlib

/-
Verification of the pest_railroad grammar-to-diagram transformation engine
(src/railroad/src/lib.rs) against its natural-language specification.

The engine consumes a pest parse tree (pairs, each a rule tag plus matched
text plus inner pairs) and builds a tree of railroad diagram nodes.  The
shallow embedding below mirrors the Rust functions `make_repeat`,
`make_expr`, `make_rule` and `generate_diagram`: the stateful loops become
explicit state-passing recursive functions; the `unreachable!` / `expect`
panics become `Option` (with `none` for a panic); machine integers (u32)
become `Nat` values bounded by `U32MAX`.
-/

set_option maxHeartbeats 1000000

namespace PestRailroad

/-- Tags of the `Rule` enum generated by pest_derive from the crate's
`grammar.pest`.  The tags explicitly handled by `lib.rs` are listed by their
source names; `peek_slice` stands among the grammar rules the transformation
engine does not handle (it falls into the wildcard arm of the term loop). -/
inductive RuleTag where
  | grammar_rules
  | grammar_rule
  | grammar_doc
  | line_doc
  | identifier
  | assignment_operator
  | silent_modifier
  | atomic_modifier
  | compound_atomic_modifier
  | non_atomic_modifier
  | opening_brace
  | closing_brace
  | opening_paren
  | closing_paren
  | expression
  | term
  | string
  | insensitive_string
  | range
  | number
  | comma
  | sequence_operator
  | choice_operator
  | optional_operator
  | repeat_operator
  | repeat_once_operator
  | repeat_exact
  | repeat_min
  | repeat_max
  | repeat_min_max
  | positive_predicate_operator
  | negative_predicate_operator
  | EOI
  | peek_slice
  deriving DecidableEq

/-- The string `{:#?}` (Rust Debug formatting) prints for a fieldless
`Rule` enum variant: exactly the variant's name. -/
def RuleTag.debugStr : RuleTag → String
  | .grammar_rules => "grammar_rules"
  | .grammar_rule => "grammar_rule"
  | .grammar_doc => "grammar_doc"
  | .line_doc => "line_doc"
  | .identifier => "identifier"
  | .assignment_operator => "assignment_operator"
  | .silent_modifier => "silent_modifier"
  | .atomic_modifier => "atomic_modifier"
  | .compound_atomic_modifier => "compound_atomic_modifier"
  | .non_atomic_modifier => "non_atomic_modifier"
  | .opening_brace => "opening_brace"
  | .closing_brace => "closing_brace"
  | .opening_paren => "opening_paren"
  | .closing_paren => "closing_paren"
  | .expression => "expression"
  | .term => "term"
  | .string => "string"
  | .insensitive_string => "insensitive_string"
  | .range => "range"
  | .number => "number"
  | .comma => "comma"
  | .sequence_operator => "sequence_operator"
  | .choice_operator => "choice_operator"
  | .optional_operator => "optional_operator"
  | .repeat_operator => "repeat_operator"
  | .repeat_once_operator => "repeat_once_operator"
  | .repeat_exact => "repeat_exact"
  | .repeat_min => "repeat_min"
  | .repeat_max => "repeat_max"
  | .repeat_min_max => "repeat_min_max"
  | .positive_predicate_operator => "positive_predicate_operator"
  | .negative_predicate_operator => "negative_predicate_operator"
  | .EOI => "EOI"
  | .peek_slice => "peek_slice"

/-- A pest parse pair: a rule tag, the matched source substring (`as_str`),
and the ordered inner pairs (`into_inner`). -/
inductive Pair where
  | mk (rule : RuleTag) (str : String) (inner : List Pair)

def Pair.rule : Pair → RuleTag
  | ⟨r, _, _⟩ => r

def Pair.str : Pair → String
  | ⟨_, s, _⟩ => s

def Pair.inner : Pair → List Pair
  | ⟨_, _, i⟩ => i

/-- The railroad diagram node tree built by the engine.  The Rust code uses
trait objects from the external `railroad` crate; here the node kinds the
engine constructs form a closed sum type.  `LabeledBox`'s caption is itself
a node (the code always passes a `Comment`). -/
inductive Node where
  | Terminal (text : String)
  | NonTerminal (text : String)
  | Sequence (children : List Node)
  | Choice (children : List Node)
  | Optional (child : Node)
  | Repeat (forward : Node) (backward : Node)
  | LabeledBox (child : Node) (caption : Node)
  | Comment (text : String)
  | Empty
  | SimpleStart
  | SimpleEnd
  | VerticalGrid (children : List Node)

/-- `u32::MAX` as a natural number. -/
def U32MAX : Nat := 4294967295

/-- The decimal value of an ASCII digit character, if it is one. -/
def decDigit (c : Char) : Option Nat :=
  if 48 ≤ c.toNat ∧ c.toNat ≤ 57 then some (c.toNat - 48) else none

/-- Accumulate the decimal value of a digit-character list. -/
def parseDigitsAux : List Char → Nat → Option Nat
  | [], acc => some acc
  | c :: cs, acc =>
    match decDigit c with
    | some d => parseDigitsAux cs (acc * 10 + d)
    | none => none

/-- `str::parse::<u32>` on the digit strings produced by the grammar's
`number` rule: succeeds exactly when the text is a nonempty digit string
whose value fits in a u32. -/
def parseU32 (s : String) : Option Nat :=
  match s.data with
  | [] => none
  | c :: cs =>
    match parseDigitsAux (c :: cs) 0 with
    | some n => if n ≤ U32MAX then some n else none
    | none => none

/-- The mutable state of the first loop in `make_repeat`. -/
structure RepeatState where
  comma_seen : Bool
  min_repeat : Option Nat
  max_repeat : Option Nat
  deriving DecidableEq

/-- One iteration of the first loop in `make_repeat` (lib.rs lines 19-52).
`none` models the `unreachable!` for an unexpected rule and the `expect`
panic on a number that fails to parse as u32. -/
def repeatStep (st : RepeatState) (p : Pair) : Option RepeatState :=
  match p.rule with
  | .opening_brace => some st
  | .closing_brace =>
    if st.comma_seen then
      some { st with
        min_repeat := if st.min_repeat.isNone then some 0 else st.min_repeat,
        max_repeat := if st.max_repeat.isNone then some U32MAX else st.max_repeat }
    else
      some { st with max_repeat := st.min_repeat }
  | .number =>
    match parseU32 p.str with
    | some n =>
      if st.comma_seen then some { st with max_repeat := some n }
      else some { st with min_repeat := some n }
    | none => none
  | .comma => some { st with comma_seen := true }
  | _ => none

/-- The resolved `(min_repeat, max_repeat)` pair after `make_repeat`'s first
loop has consumed all pairs of the bounded-repeat specifier. -/
def resolveBounds (pairs : List Pair) : Option (Option Nat × Option Nat) :=
  (pairs.foldlM repeatStep ⟨false, none, none⟩).map fun st =>
    (st.min_repeat, st.max_repeat)

/-- Shape selection in `make_repeat` (lib.rs lines 56-66): a mandatory loop
for positive minimum, a bypassable loop for minimum zero. -/
def repeatShape (min : Nat) (old_term : Node) : Node :=
  if 0 < min then .Repeat old_term .Empty
  else .Choice [.Empty, .Repeat old_term .Empty]

/-- Label selection in `make_repeat` (lib.rs lines 68-76). -/
def repeatLabel (min max : Nat) : String :=
  if min = max then s!"Repeat {min} time(s)"
  else if max = U32MAX then s!"Repeat {min} or more times"
  else if min = 0 then s!"Repeat at most {max} time(s)"
  else s!"Repeat between {min} and {max} time(s)"

/-- `make_repeat` (lib.rs lines 14-82): resolve the bounds, pick the shape
and the label, wrap in a labeled box.  `none` models the panics (loop
`unreachable!`, number-parse `expect`, and the final `unreachable!` when a
bound is missing). -/
def make_repeat (pairs : List Pair) (old_term : Node) : Option Node :=
  match resolveBounds pairs with
  | some (some min, some max) =>
    some (.LabeledBox (repeatShape min old_term) (.Comment (repeatLabel min max)))
  | _ => none

/-- The warning string pushed by the wildcard arm of the term loop
(lib.rs lines 157-162). -/
def unsupportedWarning (r : RuleTag) : String :=
  "### Unsupported rule in term: " ++ r.debugStr ++ " ###"

/-- True exactly for the rule tags that fall into the wildcard arm of the
term loop in `make_expr` (everything not matched by an explicit arm at
lib.rs lines 103-156). -/
def isUnsupportedInTerm : RuleTag → Bool
  | .identifier => false
  | .string => false
  | .insensitive_string => false
  | .range => false
  | .opening_paren => false
  | .closing_paren => false
  | .expression => false
  | .repeat_operator => false
  | .repeat_once_operator => false
  | .optional_operator => false
  | .positive_predicate_operator => false
  | .negative_predicate_operator => false
  | .repeat_exact => false
  | .repeat_min => false
  | .repeat_max => false
  | .repeat_min_max => false
  | _ => true

/-- The lookahead annotation applied after all of a term's pairs are
processed (lib.rs lines 167-180). -/
def annotateLookahead (pos neg : Nat) (t : Node) : Node :=
  if 0 < neg ∧ neg % 2 ≠ 0 then
    .LabeledBox t (.Comment "Lookahead: Can't match")
  else if 0 < pos ∧ pos % 2 ≠ 0 then
    .LabeledBox t (.Comment "Lookahead: Must match")
  else t

/-- The per-alternative flattening in `make_expr` (lib.rs lines 201-214):
an empty alternative becomes `Empty`, a singleton is returned directly,
anything longer is wrapped in a `Sequence`. -/
def flattenChoice : List Node → Node
  | [] => .Empty
  | [n] => n
  | ns => .Sequence ns

/-- The tail of `make_expr` after its main loop (lib.rs lines 195-221):
store the last nonempty alternative, flatten each alternative, and return a
single alternative directly or wrap several in a `Choice`. -/
def finishExpr (choices : List (List Node)) (curr : List Node)
    (ws : List String) : Node × List String :=
  let all := if curr.isEmpty then choices else choices ++ [curr]
  match all.map flattenChoice with
  | [c] => (c, ws)
  | cs => (.Choice cs, ws)

mutual

/-- The main loop of `make_expr` (lib.rs lines 92-193).  State: the closed
alternatives (`choices`), the current alternative (`curr_choice`), and the
accumulated warnings.  `none` models the `unreachable!` for an unexpected
rule at expression level. -/
def exprLoop : List Pair → List (List Node) → List Node → List String →
    Option (List (List Node) × List Node × List String)
  | [], choices, curr, ws => some (choices, curr, ws)
  | ⟨r, _, inner⟩ :: rest, choices, curr, ws =>
    match r with
    | .term =>
      match termLoop inner none 0 0 ws with
      | none => none
      | some (none, _, _, ws2) => exprLoop rest choices curr ws2
      | some (some t, pos, neg, ws2) =>
        exprLoop rest choices (curr ++ [annotateLookahead pos neg t]) ws2
    | .sequence_operator => exprLoop rest choices curr ws
    | .choice_operator => exprLoop rest (choices ++ [curr]) [] ws
    | _ => none

/-- The inner loop of `make_expr` over one term's pairs (lib.rs lines
102-164).  State: the term built so far, the positive and negative
lookahead counters, and the accumulated warnings.  `none` models a panic
inside `make_repeat` or inside a nested `make_expr`. -/
def termLoop : List Pair → Option Node → Nat → Nat → List String →
    Option (Option Node × Nat × Nat × List String)
  | [], term, pos, neg, ws => some (term, pos, neg, ws)
  | ⟨r, str, inner⟩ :: rest, term, pos, neg, ws =>
    match r with
    | .identifier => termLoop rest (some (.NonTerminal str)) pos neg ws
    | .string => termLoop rest (some (.Terminal str)) pos neg ws
    | .insensitive_string => termLoop rest (some (.Terminal str)) pos neg ws
    | .range => termLoop rest (some (.Terminal str)) pos neg ws
    | .opening_paren => termLoop rest term pos neg ws
    | .closing_paren => termLoop rest term pos neg ws
    | .expression =>
      match exprLoop inner [] [] [] with
      | none => none
      | some (ch, cu, w) =>
        match finishExpr ch cu w with
        | (e, warnings) => termLoop rest (some e) pos neg (ws ++ warnings)
    | .repeat_operator =>
      match term with
      | some old =>
        termLoop rest (some (.Choice [.Empty, .Repeat old .Empty])) pos neg ws
      | none => termLoop rest none pos neg ws
    | .repeat_once_operator =>
      match term with
      | some old => termLoop rest (some (.Repeat old .Empty)) pos neg ws
      | none => termLoop rest none pos neg ws
    | .optional_operator =>
      match term with
      | some old => termLoop rest (some (.Optional old)) pos neg ws
      | none => termLoop rest none pos neg ws
    | .positive_predicate_operator => termLoop rest term (pos + 1) neg ws
    | .negative_predicate_operator => termLoop rest term pos (neg + 1) ws
    | .repeat_exact =>
      match term with
      | some old =>
        match make_repeat inner old with
        | some t2 => termLoop rest (some t2) pos neg ws
        | none => none
      | none => termLoop rest none pos neg ws
    | .repeat_min =>
      match term with
      | some old =>
        match make_repeat inner old with
        | some t2 => termLoop rest (some t2) pos neg ws
        | none => none
      | none => termLoop rest none pos neg ws
    | .repeat_max =>
      match term with
      | some old =>
        match make_repeat inner old with
        | some t2 => termLoop rest (some t2) pos neg ws
        | none => none
      | none => termLoop rest none pos neg ws
    | .repeat_min_max =>
      match term with
      | some old =>
        match make_repeat inner old with
        | some t2 => termLoop rest (some t2) pos neg ws
        | none => none
      | none => termLoop rest none pos neg ws
    | _ => termLoop rest term pos neg (ws ++ [unsupportedWarning r])

end

/-- `make_expr` (lib.rs lines 84-222): run the expression loop from the
empty state, then flatten and combine. -/
def make_expr (pairs : List Pair) : Option (Node × List String) :=
  match exprLoop pairs [] [] [] with
  | none => none
  | some (choices, curr, ws) => some (finishExpr choices curr ws)

/-- The loop of `make_rule` (lib.rs lines 235-269).  State: the vertical
grid under construction, the body sequence, the display name under
construction, and the warnings.  `none` models the `unreachable!` for an
unexpected rule. -/
def ruleLoop : List Pair → List Node → List Node → String → List String →
    Option (List Node × List Node × String × List String)
  | [], grid, seq, ident, ws => some (grid, seq, ident, ws)
  | ⟨r, _, inner⟩ :: rest, grid, seq, ident, ws =>
    match r with
    | .assignment_operator => ruleLoop rest grid seq ident ws
    | .silent_modifier => ruleLoop rest grid seq (ident ++ " (silent)") ws
    | .atomic_modifier => ruleLoop rest grid seq (ident ++ " (atomic)") ws
    | .compound_atomic_modifier =>
      ruleLoop rest grid seq (ident ++ " (compound atomic)") ws
    | .non_atomic_modifier => ruleLoop rest grid seq (ident ++ " (non-atomic)") ws
    | .opening_brace =>
      ruleLoop rest (grid ++ [.Comment ident]) (seq ++ [.SimpleStart]) "" ws
    | .expression =>
      match make_expr inner with
      | none => none
      | some (e, warnings) => ruleLoop rest grid (seq ++ [e]) ident (ws ++ warnings)
    | .closing_brace => ruleLoop rest grid (seq ++ [.SimpleEnd]) ident ws
    | _ => none

/-- `make_rule` (lib.rs lines 224-273): run the rule loop starting from the
declared identifier, then stack the comment over the body sequence. -/
def make_rule (identifier : String) (pairs : List Pair) :
    Option (Node × List String) :=
  match ruleLoop pairs [] [] identifier [] with
  | none => none
  | some (grid, seq, _, ws) => some (.VerticalGrid (grid ++ [.Sequence seq]), ws)

/-- The top-level loop of `generate_diagram` (lib.rs lines 286-317) over
the parsed grammar's top-level pairs.  `none` models the `expect` on an
empty grammar rule and the `unreachable!` arms. -/
def topLoop : List Pair → List Node → List String →
    Option (List Node × List String)
  | [], nodes, ws => some (nodes, ws)
  | ⟨r, _, inner⟩ :: rest, nodes, ws =>
    match r with
    | .grammar_rule =>
      match inner with
      | [] => none
      | ⟨.line_doc, s, _⟩ :: _ => topLoop rest (nodes ++ [.Comment s]) ws
      | ⟨.identifier, s, _⟩ :: rulePairs =>
        match make_rule s rulePairs with
        | none => none
        | some (node, warnings) => topLoop rest (nodes ++ [node]) (ws ++ warnings)
      | _ => none
    | .grammar_doc => topLoop rest nodes ws
    | .EOI => topLoop rest nodes ws
    | _ => none

/-- The transformation part of `generate_diagram` after parsing succeeded
(lib.rs lines 279-319): process the top-level pairs and stack all resulting
nodes into one vertical grid. -/
def processTopLevel (pairs : List Pair) : Option (Node × List String) :=
  match topLoop pairs [] [] with
  | none => none
  | some (nodes, ws) => some (.VerticalGrid nodes, ws)

/-- The external railroad crate's `Diagram` wrapper around the root node. -/
structure Diagram where
  root : Node

def Diagram.with_default_css (root : Node) : Diagram := ⟨root⟩

/-- `generate_diagram` (lib.rs lines 276-322), parameterized by the
external pest parser (generated from grammar.pest, which is not part of
the transformation engine): a parse failure is propagated as `Except.error`;
otherwise the transformation runs.  The outer `Option`'s `none` models an
engine-side panic (`unreachable!` / `expect`), which is not an error
return. -/
def generate_diagram (parse : String → Except String (List Pair))
    (input : String) : Option (Except String (Diagram × List String)) :=
  match parse input with
  | .error e => some (.error e)
  | .ok pairs =>
    match processTopLevel pairs with
    | none => none
    | some (root, ws) => some (.ok (Diagram.with_default_css root, ws))

/-- Whether a node is the `Empty` structural marker. -/
def Node.isEmptyNode : Node → Bool
  | .Empty => true
  | _ => false

/-- A bypass path in the sense of the spec's repeat-shape property: the
node is a `Choice` one of whose direct children is `Empty`, so the loop
can be skipped entirely. -/
def hasEmptyBypass : Node → Bool
  | .Choice children => children.any Node.isEmptyNode
  | _ => false

/-- The parenthesized display-name tag `make_rule` appends for a modifier
tag, if the tag is one of the four rule modifiers (lib.rs lines 240-251). -/
def modifierTag : RuleTag → Option String
  | .silent_modifier => some " (silent)"
  | .atomic_modifier => some " (atomic)"
  | .compound_atomic_modifier => some " (compound atomic)"
  | .non_atomic_modifier => some " (non-atomic)"
  | _ => none

/-- The concatenation of the display-name tags of a list of modifier
pairs, in order. -/
def modTags : List Pair → String
  | [] => ""
  | p :: rest => ((modifierTag p.rule).getD "") ++ modTags rest

/-- The rule tags that are operator markers attached to a term: postfix
repetition and optionality operators, bounded-repeat specifiers, and
lookahead markers. -/
def isOpTag : RuleTag → Bool
  | .repeat_operator => true
  | .repeat_once_operator => true
  | .optional_operator => true
  | .repeat_exact => true
  | .repeat_min => true
  | .repeat_max => true
  | .repeat_min_max => true
  | .positive_predicate_operator => true
  | .negative_predicate_operator => true
  | _ => false

/-- Modelled from the spec: the well-formedness of a bounded-repeat
specifier's pairs that the external parser (grammar.pest, absent from src/)
guarantees — the specifier resolves to a present minimum and maximum
("a bounded-repeat specifier always has at least a minimum or maximum
number present"). -/
def WFrepeat (pairs : List Pair) : Bool :=
  match resolveBounds pairs with
  | some (some _, some _) => true
  | _ => false

mutual

/-- Modelled from the spec: well-formedness of an expression body's pairs
as guaranteed by the external parser (grammar.pest, absent from src/) —
an expression is an alternating sequence of terms, sequence separators and
choice separators. -/
def WFexpr : List Pair → Bool
  | [] => true
  | ⟨r, _, inner⟩ :: rest =>
    (match r with
     | .term => WFterm inner
     | .sequence_operator => true
     | .choice_operator => true
     | _ => false) && WFexpr rest

/-- Modelled from the spec: well-formedness of a term's pairs as guaranteed
by the external parser (grammar.pest, absent from src/) — nested
expressions are well-formed and bounded-repeat specifiers resolve. -/
def WFterm : List Pair → Bool
  | [] => true
  | ⟨r, _, inner⟩ :: rest =>
    (match r with
     | .expression => WFexpr inner
     | .repeat_exact => WFrepeat inner
     | .repeat_min => WFrepeat inner
     | .repeat_max => WFrepeat inner
     | .repeat_min_max => WFrepeat inner
     | _ => true) && WFterm rest

end

/-- Modelled from the spec: well-formedness of a grammar rule's pairs
(after the leading identifier) as guaranteed by the external parser
(grammar.pest, absent from src/). -/
def WFrule : List Pair → Bool
  | [] => true
  | ⟨r, _, inner⟩ :: rest =>
    (match r with
     | .assignment_operator => true
     | .silent_modifier => true
     | .atomic_modifier => true
     | .compound_atomic_modifier => true
     | .non_atomic_modifier => true
     | .opening_brace => true
     | .closing_brace => true
     | .expression => WFexpr inner
     | _ => false) && WFrule rest

/-- Modelled from the spec: well-formedness of the top-level pairs of a
successfully parsed grammar as guaranteed by the external parser
(grammar.pest, absent from src/). -/
def WFtop : List Pair → Bool
  | [] => true
  | ⟨r, _, inner⟩ :: rest =>
    (match r with
     | .grammar_rule =>
       match inner with
       | [] => false
       | ⟨.line_doc, _, _⟩ :: _ => true
       | ⟨.identifier, _, _⟩ :: rulePairs => WFrule rulePairs
       | _ => false
     | .grammar_doc => true
     | .EOI => true
     | _ => false) && WFtop rest

/-- Modelled from the spec: the parse tree the external parser (grammar.pest,
absent from src/) produces for the one-rule grammar whose rule is named
digits and whose body is the character range from 0 to 9 followed by the
postfix one-or-more operator.  Per the spec, the char-range pair's matched
text renders as the Terminal label 0..9. -/
def digitsParse : List Pair :=
  [⟨.grammar_rule, "", [
     ⟨.identifier, "digits", []⟩,
     ⟨.assignment_operator, "=", []⟩,
     ⟨.opening_brace, "", []⟩,
     ⟨.expression, "", [⟨.term, "", [⟨.range, "0..9", []⟩,
                                     ⟨.repeat_once_operator, "+", []⟩]⟩]⟩,
     ⟨.closing_brace, "", []⟩]⟩,
   ⟨.EOI, "", []⟩]

/-- An expression whose parse-node sequence ends with a bare choice
separator: one term (a literal string) followed by a trailing choice
operator. -/
def trailingBarInput : List Pair :=
  [⟨.term, "", [⟨.string, "a", []⟩]⟩, ⟨.choice_operator, "|", []⟩]

/-! ## Claim C3: bounded-repeat range resolution -/

/-- C3: for every bounded-repeat specifier, the resolved (min, max) pair
satisfies: exact (a number between the braces) resolves to (n, n); a number
followed by a comma resolves to (n, U32MAX); a comma followed by a number
resolves to (0, m); a number, a comma and a number resolve to (n, m). -/
theorem repeat_range_resolution (sn sm bs1 bs2 cs : String)
    (bi1 bi2 ci ni mi : List Pair) (n m : Nat)
    (hn : parseU32 sn = some n) (hm : parseU32 sm = some m) :
    resolveBounds [⟨.opening_brace, bs1, bi1⟩, ⟨.number, sn, ni⟩,
        ⟨.closing_brace, bs2, bi2⟩] = some (some n, some n)
  ∧ resolveBounds [⟨.opening_brace, bs1, bi1⟩, ⟨.number, sn, ni⟩,
        ⟨.comma, cs, ci⟩, ⟨.closing_brace, bs2, bi2⟩] = some (some n, some U32MAX)
  ∧ resolveBounds [⟨.opening_brace, bs1, bi1⟩, ⟨.comma, cs, ci⟩,
        ⟨.number, sm, mi⟩, ⟨.closing_brace, bs2, bi2⟩] = some (some 0, some m)
  ∧ resolveBounds [⟨.opening_brace, bs1, bi1⟩, ⟨.number, sn, ni⟩,
        ⟨.comma, cs, ci⟩, ⟨.number, sm, mi⟩, ⟨.closing_brace, bs2, bi2⟩]
      = some (some n, some m) := by
  refine ⟨?_, ?_, ?_, ?_⟩ <;>
    simp [resolveBounds, List.foldlM, repeatStep, Pair.rule, Pair.str, hn, hm]

/-- Witness for C3 at the concrete specifiers with minimum 2 and maximum 5. -/
theorem repeat_range_resolution_witness :
    resolveBounds [⟨.opening_brace, "", []⟩, ⟨.number, "2", []⟩,
        ⟨.closing_brace, "", []⟩] = some (some 2, some 2)
  ∧ resolveBounds [⟨.opening_brace, "", []⟩, ⟨.number, "2", []⟩,
        ⟨.comma, ",", []⟩, ⟨.closing_brace, "", []⟩] = some (some 2, some U32MAX)
  ∧ resolveBounds [⟨.opening_brace, "", []⟩, ⟨.comma, ",", []⟩,
        ⟨.number, "5", []⟩, ⟨.closing_brace, "", []⟩] = some (some 0, some 5)
  ∧ resolveBounds [⟨.opening_brace, "", []⟩, ⟨.number, "2", []⟩,
        ⟨.comma, ",", []⟩, ⟨.number, "5", []⟩, ⟨.closing_brace, "", []⟩]
      = some (some 2, some 5) :=
  repeat_range_resolution "2" "5" "" "" "," [] [] [] [] [] 2 5 (by decide) (by decide)

/-! ## Claim C4: bounded-repeat shape selection -/

/-- C4: for every bounded-repeat specifier applied to an already-built
inner node, a positive resolved minimum produces `Repeat(inner, Empty)`
with no bypass path, and a zero resolved minimum produces
`Choice(Empty, Repeat(inner, Empty))`, which has the bypass path. -/
theorem repeat_shape_selection (pairs : List Pair) (t : Node) (min max : Nat)
    (h : resolveBounds pairs = some (some min, some max)) :
    make_repeat pairs t
      = some (.LabeledBox (repeatShape min t) (.Comment (repeatLabel min max)))
  ∧ (0 < min → repeatShape min t = .Repeat t .Empty
      ∧ hasEmptyBypass (repeatShape min t) = false)
  ∧ (min = 0 → repeatShape min t = .Choice [.Empty, .Repeat t .Empty]
      ∧ hasEmptyBypass (repeatShape min t) = true) := by
  refine ⟨by simp [make_repeat, h], ?_, ?_⟩
  · intro hpos
    simp [repeatShape, hpos, hasEmptyBypass]
  · intro hzero
    subst hzero
    simp [repeatShape, hasEmptyBypass, Node.isEmptyNode]

/-- Witness for C4 at the exact-count specifier with count 2 (mandatory
loop) applied to a terminal node. -/
theorem repeat_shape_selection_witness :
    make_repeat [⟨.opening_brace, "", []⟩, ⟨.number, "2", []⟩,
        ⟨.closing_brace, "", []⟩] (.Terminal "a")
      = some (.LabeledBox (repeatShape 2 (.Terminal "a"))
          (.Comment (repeatLabel 2 2)))
  ∧ (0 < 2 → repeatShape 2 (.Terminal "a") = .Repeat (.Terminal "a") .Empty
      ∧ hasEmptyBypass (repeatShape 2 (.Terminal "a")) = false)
  ∧ (2 = 0 → repeatShape 2 (.Terminal "a") = .Choice [.Empty, .Repeat (.Terminal "a") .Empty]
      ∧ hasEmptyBypass (repeatShape 2 (.Terminal "a")) = true) :=
  repeat_shape_selection [⟨.opening_brace, "", []⟩, ⟨.number, "2", []⟩,
    ⟨.closing_brace, "", []⟩] (.Terminal "a") 2 2 (by decide)

/-! ## Claim C5: bounded-repeat label selection -/

/-- C5: for every bounded-repeat specifier with resolved (min, max), the
output is `LabeledBox(shape, Comment(label))` with the label chosen by the
mutually exclusive priority order: equal bounds first, then unbounded
maximum, then zero minimum, then the between form — so a specifier with
minimum 0 and unbounded maximum gets the "or more" label, not the
"at most" label. -/
theorem repeat_label_selection (pairs : List Pair) (t : Node) (min max : Nat)
    (h : resolveBounds pairs = some (some min, some max)) :
    make_repeat pairs t
      = some (.LabeledBox (repeatShape min t) (.Comment (repeatLabel min max)))
  ∧ (min = max → repeatLabel min max = s!"Repeat {min} time(s)")
  ∧ (min ≠ max → max = U32MAX → repeatLabel min max = s!"Repeat {min} or more times")
  ∧ (min ≠ max → max ≠ U32MAX → min = 0 →
      repeatLabel min max = s!"Repeat at most {max} time(s)")
  ∧ (min ≠ max → max ≠ U32MAX → min ≠ 0 →
      repeatLabel min max = s!"Repeat between {min} and {max} time(s)") := by
  refine ⟨by simp [make_repeat, h], ?_, ?_, ?_, ?_⟩
  · intro he; subst he; simp [repeatLabel]
  · intro hne hu; subst hu; simp [repeatLabel, hne]
  · intro hne hu hz; subst hz; simp [repeatLabel, hne, hu]
  · intro hne hu hz; simp [repeatLabel, hne, hu, hz]

/-- Witness for C5 at the specifier with minimum 0 and no maximum (a zero
then a comma between the braces): it resolves to (0, U32MAX) and gets the
"Repeat 0 or more times" label, not the "at most" label. -/
theorem repeat_label_selection_witness :
    make_repeat [⟨.opening_brace, "", []⟩, ⟨.number, "0", []⟩,
        ⟨.comma, ",", []⟩, ⟨.closing_brace, "", []⟩] (.Terminal "a")
      = some (.LabeledBox (repeatShape 0 (.Terminal "a"))
          (.Comment (repeatLabel 0 U32MAX)))
  ∧ (0 ≠ U32MAX → U32MAX = U32MAX →
      repeatLabel 0 U32MAX = s!"Repeat {0} or more times") :=
  have h := repeat_label_selection [⟨.opening_brace, "", []⟩, ⟨.number, "0", []⟩,
    ⟨.comma, ",", []⟩, ⟨.closing_brace, "", []⟩] (.Terminal "a") 0 U32MAX (by decide)
  ⟨h.1, h.2.2.1⟩

/-! ## Infrastructure lemmas about the expression and term loops -/

/-- Running the expression loop on a concatenation is running it on the
first part and continuing on the second from the resulting state. -/
theorem exprLoop_append (xs ys : List Pair) : ∀ ch cu ws,
    exprLoop (xs ++ ys) ch cu ws =
      (exprLoop xs ch cu ws).bind fun r => exprLoop ys r.1 r.2.1 r.2.2 := by
  induction xs with
  | nil => intro ch cu ws; simp [exprLoop]
  | cons p rest ih =>
    obtain ⟨r, s, i⟩ := p
    intro ch cu ws
    cases r <;> simp only [List.cons_append, exprLoop] <;> try simp [ih]
    rcases termLoop i none 0 0 ws with _ | ⟨_ | t, pos, neg, ws2⟩ <;> simp

/-- The warnings accumulator is write-only: running either loop with an
initial warnings list only prepends that list to the warnings the run
itself produces. -/
theorem loops_ws_shift (N : Nat) : ∀ (ps : List Pair), sizeOf ps ≤ N →
    (∀ ch cu ws, exprLoop ps ch cu ws =
       (exprLoop ps ch cu []).map fun r => (r.1, r.2.1, ws ++ r.2.2))
  ∧ (∀ t p n ws, termLoop ps t p n ws =
       (termLoop ps t p n []).map fun r => (r.1, r.2.1, r.2.2.1, ws ++ r.2.2.2)) := by
  induction N with
  | zero =>
    intro ps h
    exfalso
    cases ps <;> simp_all
  | succ N ihN =>
    intro ps hps
    match ps with
    | [] => constructor <;> intro _ _ _ <;> simp [exprLoop, termLoop]
    | ⟨r, s, i⟩ :: rest =>
      have hsz : sizeOf (Pair.mk r s i :: rest) = 1 + (1 + sizeOf r + sizeOf s + sizeOf i) + sizeOf rest := by
        simp [Pair.mk.sizeOf_spec]
      have hrest : sizeOf rest ≤ N := by
        have hr1 : 1 ≤ sizeOf r := by cases r <;> simp
        omega
      have hi : sizeOf i ≤ N := by
        have hr1 : 1 ≤ sizeOf r := by cases r <;> simp
        omega
      constructor
      · intro ch cu ws
        cases r
        case term =>
          simp only [exprLoop]
          rw [(ihN i hi).2 none 0 0 ws]
          rcases termLoop i none 0 0 [] with _ | ⟨topt, pos, neg, w2⟩
          · simp
          · rcases topt with _ | t
            · simp only [Option.map]
              rw [(ihN rest hrest).1 ch cu (ws ++ w2), (ihN rest hrest).1 ch cu w2]
              cases exprLoop rest ch cu [] <;> simp
            · simp only [Option.map]
              rw [(ihN rest hrest).1 ch (cu ++ [annotateLookahead pos neg t]) (ws ++ w2),
                  (ihN rest hrest).1 ch (cu ++ [annotateLookahead pos neg t]) w2]
              cases exprLoop rest ch (cu ++ [annotateLookahead pos neg t]) [] <;> simp
        case sequence_operator =>
          simp only [exprLoop]
          exact (ihN rest hrest).1 ch cu ws
        case choice_operator =>
          simp only [exprLoop]
          exact (ihN rest hrest).1 (ch ++ [cu]) [] ws
        all_goals simp [exprLoop]
      · intro t p n ws
        cases r
        case expression =>
          simp only [termLoop]
          rcases exprLoop i [] [] [] with _ | ⟨a, b, c⟩
          · simp
          · dsimp only [List.nil_append]
            rw [(ihN rest hrest).2 (some (finishExpr a b c).1) p n (ws ++ (finishExpr a b c).2),
                (ihN rest hrest).2 (some (finishExpr a b c).1) p n ((finishExpr a b c).2)]
            cases termLoop rest (some (finishExpr a b c).1) p n [] <;> simp
        case repeat_operator =>
          rcases t with _ | old <;> simp only [termLoop] <;> exact (ihN rest hrest).2 _ p n ws
        case repeat_once_operator =>
          rcases t with _ | old <;> simp only [termLoop] <;> exact (ihN rest hrest).2 _ p n ws
        case optional_operator =>
          rcases t with _ | old <;> simp only [termLoop] <;> exact (ihN rest hrest).2 _ p n ws
        case repeat_exact =>
          rcases t with _ | old
          · simp only [termLoop]
            exact (ihN rest hrest).2 none p n ws
          · simp only [termLoop]
            rcases make_repeat i old with _ | t2
            · simp
            · exact (ihN rest hrest).2 (some t2) p n ws
        case repeat_min =>
          rcases t with _ | old
          · simp only [termLoop]
            exact (ihN rest hrest).2 none p n ws
          · simp only [termLoop]
            rcases make_repeat i old with _ | t2
            · simp
            · exact (ihN rest hrest).2 (some t2) p n ws
        case repeat_max =>
          rcases t with _ | old
          · simp only [termLoop]
            exact (ihN rest hrest).2 none p n ws
          · simp only [termLoop]
            rcases make_repeat i old with _ | t2
            · simp
            · exact (ihN rest hrest).2 (some t2) p n ws
        case repeat_min_max =>
          rcases t with _ | old
          · simp only [termLoop]
            exact (ihN rest hrest).2 none p n ws
          · simp only [termLoop]
            rcases make_repeat i old with _ | t2
            · simp
            · exact (ihN rest hrest).2 (some t2) p n ws
        all_goals simp only [termLoop]
        all_goals try exact (ihN rest hrest).2 _ _ _ ws
        all_goals
          rw [(ihN rest hrest).2 t p n (ws ++ [unsupportedWarning _]),
              (ihN rest hrest).2 t p n ([] ++ [unsupportedWarning _])]
        all_goals cases termLoop rest t p n [] <;> simp

/-- Specialization of the warnings-shift property to the expression loop. -/
theorem exprLoop_ws_shift (ps : List Pair) (ch : List (List Node))
    (cu : List Node) (ws : List String) :
    exprLoop ps ch cu ws =
      (exprLoop ps ch cu []).map fun r => (r.1, r.2.1, ws ++ r.2.2) :=
  (loops_ws_shift (sizeOf ps) ps le_rfl).1 ch cu ws

/-- Specialization of the warnings-shift property to the term loop. -/
theorem termLoop_ws_shift (ps : List Pair) (t : Option Node) (p n : Nat)
    (ws : List String) :
    termLoop ps t p n ws =
      (termLoop ps t p n []).map fun r => (r.1, r.2.1, r.2.2.1, ws ++ r.2.2.2) :=
  (loops_ws_shift (sizeOf ps) ps le_rfl).2 t p n ws

/-- The lookahead counters are write-only: starting either counter higher
shifts the final counters by the same amount and changes nothing else. -/
theorem termLoop_counter_shift (tps : List Pair) : ∀ (t0 : Option Node)
    (p0 n0 dp dn : Nat) (ws : List String),
    termLoop tps t0 (p0 + dp) (n0 + dn) ws =
      (termLoop tps t0 p0 n0 ws).map fun r =>
        (r.1, r.2.1 + dp, r.2.2.1 + dn, r.2.2.2) := by
  induction tps with
  | nil => intro t0 p0 n0 dp dn ws; simp [termLoop]
  | cons p rest ih =>
    obtain ⟨r, s, i⟩ := p
    intro t0 p0 n0 dp dn ws
    cases r
    case expression =>
      simp only [termLoop]
      rcases exprLoop i [] [] [] with _ | ⟨a, b, c⟩
      · simp
      · dsimp only
        exact ih _ p0 n0 dp dn _
    case positive_predicate_operator =>
      simp only [termLoop]
      rw [show p0 + dp + 1 = p0 + 1 + dp from by omega]
      exact ih t0 (p0 + 1) n0 dp dn ws
    case negative_predicate_operator =>
      simp only [termLoop]
      rw [show n0 + dn + 1 = n0 + 1 + dn from by omega]
      exact ih t0 p0 (n0 + 1) dp dn ws
    case repeat_operator =>
      rcases t0 with _ | old <;> simp only [termLoop] <;> exact ih _ p0 n0 dp dn ws
    case repeat_once_operator =>
      rcases t0 with _ | old <;> simp only [termLoop] <;> exact ih _ p0 n0 dp dn ws
    case optional_operator =>
      rcases t0 with _ | old <;> simp only [termLoop] <;> exact ih _ p0 n0 dp dn ws
    case repeat_exact =>
      rcases t0 with _ | old
      · simp only [termLoop]; exact ih none p0 n0 dp dn ws
      · simp only [termLoop]
        rcases make_repeat i old with _ | t2
        · simp
        · exact ih (some t2) p0 n0 dp dn ws
    case repeat_min =>
      rcases t0 with _ | old
      · simp only [termLoop]; exact ih none p0 n0 dp dn ws
      · simp only [termLoop]
        rcases make_repeat i old with _ | t2
        · simp
        · exact ih (some t2) p0 n0 dp dn ws
    case repeat_max =>
      rcases t0 with _ | old
      · simp only [termLoop]; exact ih none p0 n0 dp dn ws
      · simp only [termLoop]
        rcases make_repeat i old with _ | t2
        · simp
        · exact ih (some t2) p0 n0 dp dn ws
    case repeat_min_max =>
      rcases t0 with _ | old
      · simp only [termLoop]; exact ih none p0 n0 dp dn ws
      · simp only [termLoop]
        rcases make_repeat i old with _ | t2
        · simp
        · exact ih (some t2) p0 n0 dp dn ws
    all_goals simp only [termLoop]
    all_goals exact ih _ p0 n0 dp dn _

/-! ## Claim C1: an expression ending with a bare choice separator -/

/-- C1 counterexample: on the expression consisting of one literal term
followed by a bare trailing choice separator, `make_expr` returns the
term's node alone — not a `Choice` node, so no empty alternative appears
as a last `Choice` child. -/
theorem trailing_choice_counterexample :
    make_expr trailingBarInput = some (.Terminal "a", [])
  ∧ ∀ cs ws, make_expr trailingBarInput ≠ some (.Choice cs, ws) := by
  have h : make_expr trailingBarInput = some (.Terminal "a", []) := by
    simp [make_expr, trailingBarInput, exprLoop, termLoop, finishExpr,
      flattenChoice, annotateLookahead]
  refine ⟨h, ?_⟩
  intro cs ws hc
  rw [h] at hc
  simp at hc

/-- C1 (amended): a trailing bare choice separator's empty final
alternative is dropped, not kept: whenever the preceding pairs leave a
nonempty current alternative, appending a trailing choice separator
produces exactly the same result as omitting it. -/
theorem trailing_choice_sep_dropped (ps : List Pair) (s : String) (i : List Pair)
    (choices : List (List Node)) (curr : List Node) (ws : List String)
    (h : exprLoop ps [] [] [] = some (choices, curr, ws)) (hne : curr ≠ []) :
    make_expr (ps ++ [⟨.choice_operator, s, i⟩]) = make_expr ps := by
  unfold make_expr
  rw [exprLoop_append ps [⟨.choice_operator, s, i⟩] [] [] [], h]
  simp [exprLoop, finishExpr, hne]

/-- Witness for the amended C1 at the concrete expression with one literal
term before the trailing separator. -/
theorem trailing_choice_sep_dropped_witness :
    make_expr ([⟨.term, "", [⟨.string, "a", []⟩]⟩] ++ [⟨.choice_operator, "|", []⟩])
      = make_expr [⟨.term, "", [⟨.string, "a", []⟩]⟩] :=
  trailing_choice_sep_dropped [⟨.term, "", [⟨.string, "a", []⟩]⟩] "|" []
    [] [.Terminal "a"] []
    (by simp [exprLoop, termLoop, annotateLookahead]) (by simp)

/-! ## Claim C6: lookahead parity -/

/-- C6: after all of a term's pairs are processed, the node is wrapped in
the negative-lookahead box exactly when the negative count is odd, else in
the positive-lookahead box exactly when the positive count is odd, and is
left unannotated when both counts are even; moreover prepending two
negative-lookahead markers to the term leaves the built node identical. -/
theorem lookahead_parity (tps : List Pair) (t : Node) (pos neg : Nat)
    (ws : List String)
    (h : termLoop tps none 0 0 [] = some (some t, pos, neg, ws)) :
    (neg % 2 = 1 →
      annotateLookahead pos neg t = .LabeledBox t (.Comment "Lookahead: Can't match"))
  ∧ (neg % 2 = 0 → pos % 2 = 1 →
      annotateLookahead pos neg t = .LabeledBox t (.Comment "Lookahead: Must match"))
  ∧ (neg % 2 = 0 → pos % 2 = 0 → annotateLookahead pos neg t = t)
  ∧ ∀ s1 i1 s2 i2,
      termLoop (⟨.negative_predicate_operator, s1, i1⟩ ::
          ⟨.negative_predicate_operator, s2, i2⟩ :: tps) none 0 0 []
        = some (some t, pos, neg + 2, ws)
      ∧ annotateLookahead pos (neg + 2) t = annotateLookahead pos neg t := by
  refine ⟨?_, ?_, ?_, ?_⟩
  · intro h1
    have hc : 0 < neg ∧ neg % 2 ≠ 0 := by omega
    unfold annotateLookahead
    rw [if_pos hc]
  · intro h1 h2
    have hc1 : ¬(0 < neg ∧ neg % 2 ≠ 0) := by omega
    have hc2 : 0 < pos ∧ pos % 2 ≠ 0 := by omega
    unfold annotateLookahead
    rw [if_neg hc1, if_pos hc2]
  · intro h1 h2
    have hc1 : ¬(0 < neg ∧ neg % 2 ≠ 0) := by omega
    have hc2 : ¬(0 < pos ∧ pos % 2 ≠ 0) := by omega
    unfold annotateLookahead
    rw [if_neg hc1, if_neg hc2]
  · intro s1 i1 s2 i2
    constructor
    · have h2 := termLoop_counter_shift tps none 0 0 0 2 []
      simp only [Nat.zero_add, Nat.add_zero] at h2
      simp only [termLoop]
      simp [h2, h]
    · by_cases hn : neg % 2 = 0
      · have a1 : ¬(0 < neg ∧ neg % 2 ≠ 0) := by omega
        have a2 : ¬(0 < neg + 2 ∧ (neg + 2) % 2 ≠ 0) := by omega
        unfold annotateLookahead
        rw [if_neg a1, if_neg a2]
      · have a1 : 0 < neg ∧ neg % 2 ≠ 0 := by omega
        have a2 : 0 < neg + 2 ∧ (neg + 2) % 2 ≠ 0 := by omega
        unfold annotateLookahead
        rw [if_pos a1, if_pos a2]

/-- Witness for C6: a double negative lookahead before a literal primary
yields the same (unannotated) node the bare literal yields. -/
theorem lookahead_parity_witness :
    termLoop [⟨.negative_predicate_operator, "!", []⟩,
        ⟨.negative_predicate_operator, "!", []⟩, ⟨.string, "a", []⟩] none 0 0 []
      = some (some (.Terminal "a"), 0, 0 + 2, [])
  ∧ annotateLookahead 0 (0 + 2) (.Terminal "a")
      = annotateLookahead 0 0 (.Terminal "a") :=
  (lookahead_parity [⟨.string, "a", []⟩] (.Terminal "a") 0 0 []
    (by simp [termLoop])).2.2.2 "!" [] "!" []

/-! ## Claims C7 and C10: unsupported constructs degrade to one warning -/

/-- A pair whose rule tag falls into the term loop's wildcard arm only
appends its warning and changes nothing else. -/
theorem termLoop_unsupported_step (tag : RuleTag)
    (hu : isUnsupportedInTerm tag = true) (ts : String) (ti k : List Pair)
    (t0 : Option Node) (p n : Nat) (ws : List String) :
    termLoop (⟨tag, ts, ti⟩ :: k) t0 p n ws
      = termLoop k t0 p n (ws ++ [unsupportedWarning tag]) := by
  cases tag <;> simp_all [termLoop, isUnsupportedInTerm]

/-- A term whose single inner pair is unsupported contributes no node to
the current alternative and exactly its one warning. -/
theorem exprLoop_unsupported_term_step (tag : RuleTag)
    (hu : isUnsupportedInTerm tag = true) (s ts : String) (ti k : List Pair)
    (ch : List (List Node)) (cu : List Node) (ws : List String) :
    exprLoop (⟨.term, s, [⟨tag, ts, ti⟩]⟩ :: k) ch cu ws
      = exprLoop k ch cu (ws ++ [unsupportedWarning tag]) := by
  simp only [exprLoop]
  rw [termLoop_unsupported_step tag hu ts ti [] none 0 0 ws]
  simp [termLoop]

/-- C7: inserting one term with an unrecognized primary into an expression
leaves the built alternatives exactly as without it and adds exactly one
warning — the one naming the unrecognized construct — at that position,
while the sibling pairs before and after are still processed. -/
theorem unsupported_term_single_warning (ps1 ps2 : List Pair) (s ts : String)
    (ti : List Pair) (tag : RuleTag) (hu : isUnsupportedInTerm tag = true)
    (ch1 : List (List Node)) (cu1 : List Node) (ws1 : List String)
    (h1 : exprLoop ps1 [] [] [] = some (ch1, cu1, ws1))
    (ch : List (List Node)) (cu : List Node) (ws : List String)
    (h2 : exprLoop (ps1 ++ ps2) [] [] [] = some (ch, cu, ws)) :
    ∃ ws2, ws = ws1 ++ ws2 ∧
      exprLoop (ps1 ++ ⟨.term, s, [⟨tag, ts, ti⟩]⟩ :: ps2) [] [] []
        = some (ch, cu, ws1 ++ unsupportedWarning tag :: ws2) := by
  have hrun : exprLoop ps2 ch1 cu1 ws1 = some (ch, cu, ws) := by
    rw [← h2, exprLoop_append ps1 ps2 [] [] [], h1]
    rfl
  rw [exprLoop_ws_shift ps2 ch1 cu1 ws1] at hrun
  rcases hbase : exprLoop ps2 ch1 cu1 [] with _ | ⟨ch2, cu2, d⟩
  · rw [hbase] at hrun; simp at hrun
  · rw [hbase] at hrun
    simp only [Option.map, Option.some.injEq, Prod.mk.injEq] at hrun
    obtain ⟨hch, hcu, hws⟩ := hrun
    subst hch
    subst hcu
    subst hws
    refine ⟨d, rfl, ?_⟩
    rw [exprLoop_append ps1 (⟨.term, s, [⟨tag, ts, ti⟩]⟩ :: ps2) [] [] [], h1]
    show exprLoop (⟨.term, s, [⟨tag, ts, ti⟩]⟩ :: ps2) ch1 cu1 ws1 = _
    rw [exprLoop_unsupported_term_step tag hu s ts ti ps2 ch1 cu1 ws1]
    rw [exprLoop_ws_shift ps2 ch1 cu1 (ws1 ++ [unsupportedWarning tag]), hbase]
    simp

/-- Witness for C7: a term using the unsupported `peek_slice` construct
between two literal terms yields both siblings' nodes and exactly the one
warning naming `peek_slice`. -/
theorem unsupported_term_single_warning_witness :
    ∃ ws2, ([] : List String) = [] ++ ws2 ∧
      exprLoop ([⟨.term, "", [⟨.string, "a", []⟩]⟩] ++
          ⟨.term, "", [⟨.peek_slice, "x", []⟩]⟩ :: [⟨.term, "", [⟨.string, "b", []⟩]⟩])
          [] [] []
        = some ([], [.Terminal "a", .Terminal "b"],
            [] ++ unsupportedWarning .peek_slice :: ws2) :=
  unsupported_term_single_warning [⟨.term, "", [⟨.string, "a", []⟩]⟩]
    [⟨.term, "", [⟨.string, "b", []⟩]⟩] "" "x" [] .peek_slice rfl
    [] [.Terminal "a"] [] (by simp [exprLoop, termLoop, annotateLookahead])
    [] [.Terminal "a", .Terminal "b"] []
    (by simp [exprLoop, termLoop, annotateLookahead])

/-- Operator-marker pairs with no term built yet are all no-ops except for
the lookahead counters: they build no node and emit no warning. -/
theorem termLoop_ops_skip (ps : List Pair)
    (hops : ∀ p ∈ ps, isOpTag p.rule = true) :
    ∀ (k : List Pair) (pos neg : Nat) (ws : List String),
    ∃ p2 n2, termLoop (ps ++ k) none pos neg ws = termLoop k none p2 n2 ws := by
  induction ps with
  | nil => intro k pos neg ws; exact ⟨pos, neg, rfl⟩
  | cons p rest ih =>
    obtain ⟨r, s, i⟩ := p
    have hr : isOpTag r = true := by
      have := hops ⟨r, s, i⟩ (List.mem_cons_self _ _)
      simpa [Pair.rule] using this
    have hrest : ∀ p ∈ rest, isOpTag p.rule = true :=
      fun p hp => hops p (List.mem_cons_of_mem _ hp)
    intro k pos neg ws
    cases r
    case repeat_operator =>
      simp only [List.cons_append, termLoop]
      exact ih hrest k pos neg ws
    case repeat_once_operator =>
      simp only [List.cons_append, termLoop]
      exact ih hrest k pos neg ws
    case optional_operator =>
      simp only [List.cons_append, termLoop]
      exact ih hrest k pos neg ws
    case repeat_exact =>
      simp only [List.cons_append, termLoop]
      exact ih hrest k pos neg ws
    case repeat_min =>
      simp only [List.cons_append, termLoop]
      exact ih hrest k pos neg ws
    case repeat_max =>
      simp only [List.cons_append, termLoop]
      exact ih hrest k pos neg ws
    case repeat_min_max =>
      simp only [List.cons_append, termLoop]
      exact ih hrest k pos neg ws
    case positive_predicate_operator =>
      simp only [List.cons_append, termLoop]
      exact ih hrest k (pos + 1) neg ws
    case negative_predicate_operator =>
      simp only [List.cons_append, termLoop]
      exact ih hrest k pos (neg + 1) ws
    all_goals exact absurd hr (by simp [isOpTag])

/-- C10: in a term whose primary is unrecognized, all attached operator
markers (before or after the primary) are silently discarded: the term
builds no node and yields exactly the one warning for the primary. -/
theorem ops_discarded_after_unsupported (ps1 ps2 : List Pair) (tag : RuleTag)
    (ts : String) (ti : List Pair)
    (h1 : ∀ p ∈ ps1, isOpTag p.rule = true)
    (h2 : ∀ p ∈ ps2, isOpTag p.rule = true)
    (hu : isUnsupportedInTerm tag = true) :
    ∃ pos neg, termLoop (ps1 ++ ⟨tag, ts, ti⟩ :: ps2) none 0 0 []
      = some (none, pos, neg, [unsupportedWarning tag]) := by
  obtain ⟨p2, n2, hskip⟩ := termLoop_ops_skip ps1 h1 (⟨tag, ts, ti⟩ :: ps2) 0 0 []
  rw [hskip, termLoop_unsupported_step tag hu ts ti ps2 none p2 n2 []]
  obtain ⟨p3, n3, hskip2⟩ :=
    termLoop_ops_skip ps2 h2 [] p2 n2 ([] ++ [unsupportedWarning tag])
  rw [List.append_nil] at hskip2
  refine ⟨p3, n3, ?_⟩
  rw [hskip2]
  simp [termLoop]

/-- Witness for C10: a negative lookahead marker, then the unsupported
`peek_slice` construct, then a postfix repetition operator: no node, the
operators are discarded, and exactly one warning is produced. -/
theorem ops_discarded_after_unsupported_witness :
    ∃ pos neg, termLoop ([⟨.negative_predicate_operator, "!", []⟩] ++
        ⟨.peek_slice, "x", []⟩ :: [⟨.repeat_operator, "*", []⟩]) none 0 0 []
      = some (none, pos, neg, [unsupportedWarning .peek_slice]) :=
  ops_discarded_after_unsupported [⟨.negative_predicate_operator, "!", []⟩]
    [⟨.repeat_operator, "*", []⟩] .peek_slice "x" []
    (by simp [isOpTag, Pair.rule]) (by simp [isOpTag, Pair.rule]) rfl

/-! ## Totality of the transformation on well-formed parse trees (C8) -/

/-- On a well-formed bounded-repeat specifier, `make_repeat` never hits a
panic. -/
theorem make_repeat_isSome (ps : List Pair) (t : Node)
    (h : WFrepeat ps = true) : (make_repeat ps t).isSome = true := by
  unfold make_repeat
  rcases hrb : resolveBounds ps with _ | ⟨_ | m, _ | M⟩ <;>
    simp_all [WFrepeat]

/-- On well-formed expression and term pair lists, the two loops never hit
a panic. -/
theorem loops_total (N : Nat) : ∀ (ps : List Pair), sizeOf ps ≤ N →
    (∀ ch cu ws, WFexpr ps = true → (exprLoop ps ch cu ws).isSome = true)
  ∧ (∀ t p n ws, WFterm ps = true → (termLoop ps t p n ws).isSome = true) := by
  induction N with
  | zero =>
    intro ps h
    exfalso
    cases ps <;> simp_all
  | succ N ihN =>
    intro ps hps
    match ps with
    | [] =>
      constructor
      · intro ch cu ws _; simp [exprLoop]
      · intro t p n ws _; simp [termLoop]
    | ⟨r, s, i⟩ :: rest =>
      have hsz : sizeOf (Pair.mk r s i :: rest) = 1 + (1 + sizeOf r + sizeOf s + sizeOf i) + sizeOf rest := by
        simp [Pair.mk.sizeOf_spec]
      have hrest : sizeOf rest ≤ N := by
        have hr1 : 1 ≤ sizeOf r := by cases r <;> simp
        omega
      have hi : sizeOf i ≤ N := by
        have hr1 : 1 ≤ sizeOf r := by cases r <;> simp
        omega
      constructor
      · intro ch cu ws hwf
        cases r
        case term =>
          simp only [WFexpr, Bool.and_eq_true] at hwf
          obtain ⟨hwt, hwe⟩ := hwf
          simp only [exprLoop]
          have ht := (ihN i hi).2 none 0 0 ws hwt
          rcases htl : termLoop i none 0 0 ws with _ | ⟨topt, pos, neg, w2⟩
          · rw [htl] at ht; simp at ht
          · rcases topt with _ | t
            · exact (ihN rest hrest).1 ch cu w2 hwe
            · exact (ihN rest hrest).1 ch (cu ++ [annotateLookahead pos neg t]) w2 hwe
        case sequence_operator =>
          simp only [WFexpr, Bool.and_eq_true] at hwf
          simp only [exprLoop]
          exact (ihN rest hrest).1 ch cu ws hwf.2
        case choice_operator =>
          simp only [WFexpr, Bool.and_eq_true] at hwf
          simp only [exprLoop]
          exact (ihN rest hrest).1 (ch ++ [cu]) [] ws hwf.2
        all_goals simp only [WFexpr, Bool.false_and] at hwf
        all_goals exact Bool.noConfusion hwf
      · intro t p n ws hwf
        cases r
        case expression =>
          simp only [WFterm, Bool.and_eq_true] at hwf
          obtain ⟨hwe, hwt⟩ := hwf
          simp only [termLoop]
          have he := (ihN i hi).1 [] [] [] hwe
          rcases hel : exprLoop i [] [] [] with _ | ⟨a, b, c⟩
          · rw [hel] at he; simp at he
          · dsimp only
            exact (ihN rest hrest).2 _ p n _ hwt
        case repeat_exact =>
          simp only [WFterm, Bool.and_eq_true] at hwf
          obtain ⟨hwr, hwt⟩ := hwf
          rcases t with _ | old
          · simp only [termLoop]
            exact (ihN rest hrest).2 none p n ws hwt
          · simp only [termLoop]
            have hmk := make_repeat_isSome i old hwr
            rw [Option.isSome_iff_exists] at hmk
            obtain ⟨t2, hmk⟩ := hmk
            rw [hmk]
            exact (ihN rest hrest).2 (some t2) p n ws hwt
        case repeat_min =>
          simp only [WFterm, Bool.and_eq_true] at hwf
          obtain ⟨hwr, hwt⟩ := hwf
          rcases t with _ | old
          · simp only [termLoop]
            exact (ihN rest hrest).2 none p n ws hwt
          · simp only [termLoop]
            have hmk := make_repeat_isSome i old hwr
            rw [Option.isSome_iff_exists] at hmk
            obtain ⟨t2, hmk⟩ := hmk
            rw [hmk]
            exact (ihN rest hrest).2 (some t2) p n ws hwt
        case repeat_max =>
          simp only [WFterm, Bool.and_eq_true] at hwf
          obtain ⟨hwr, hwt⟩ := hwf
          rcases t with _ | old
          · simp only [termLoop]
            exact (ihN rest hrest).2 none p n ws hwt
          · simp only [termLoop]
            have hmk := make_repeat_isSome i old hwr
            rw [Option.isSome_iff_exists] at hmk
            obtain ⟨t2, hmk⟩ := hmk
            rw [hmk]
            exact (ihN rest hrest).2 (some t2) p n ws hwt
        case repeat_min_max =>
          simp only [WFterm, Bool.and_eq_true] at hwf
          obtain ⟨hwr, hwt⟩ := hwf
          rcases t with _ | old
          · simp only [termLoop]
            exact (ihN rest hrest).2 none p n ws hwt
          · simp only [termLoop]
            have hmk := make_repeat_isSome i old hwr
            rw [Option.isSome_iff_exists] at hmk
            obtain ⟨t2, hmk⟩ := hmk
            rw [hmk]
            exact (ihN rest hrest).2 (some t2) p n ws hwt
        case repeat_operator =>
          simp only [WFterm, Bool.and_eq_true] at hwf
          rcases t with _ | old <;> simp only [termLoop] <;>
            exact (ihN rest hrest).2 _ p n ws hwf.2
        case repeat_once_operator =>
          simp only [WFterm, Bool.and_eq_true] at hwf
          rcases t with _ | old <;> simp only [termLoop] <;>
            exact (ihN rest hrest).2 _ p n ws hwf.2
        case optional_operator =>
          simp only [WFterm, Bool.and_eq_true] at hwf
          rcases t with _ | old <;> simp only [termLoop] <;>
            exact (ihN rest hrest).2 _ p n ws hwf.2
        all_goals simp only [WFterm, Bool.and_eq_true] at hwf
        all_goals simp only [termLoop]
        all_goals exact (ihN rest hrest).2 _ _ _ _ hwf.2

/-- On a well-formed expression, `make_expr` never hits a panic. -/
theorem make_expr_isSome (ps : List Pair) (h : WFexpr ps = true) :
    (make_expr ps).isSome = true := by
  unfold make_expr
  have ht := (loops_total (sizeOf ps) ps le_rfl).1 [] [] [] h
  rw [Option.isSome_iff_exists] at ht
  obtain ⟨r, hr⟩ := ht
  rw [hr]
  simp

/-- On a well-formed rule body, the rule loop never hits a panic. -/
theorem ruleLoop_isSome (ps : List Pair) : ∀ (grid seq : List Node)
    (ident : String) (ws : List String), WFrule ps = true →
    (ruleLoop ps grid seq ident ws).isSome = true := by
  induction ps with
  | nil => intro grid seq ident ws _; simp [ruleLoop]
  | cons p rest ih =>
    obtain ⟨r, s, i⟩ := p
    intro grid seq ident ws hwf
    cases r
    case expression =>
      simp only [WFrule, Bool.and_eq_true] at hwf
      obtain ⟨hwe, hwr⟩ := hwf
      simp only [ruleLoop]
      have hme := make_expr_isSome i hwe
      rw [Option.isSome_iff_exists] at hme
      obtain ⟨ew, hme⟩ := hme
      rw [hme]
      exact ih _ _ _ _ hwr
    case assignment_operator =>
      simp only [WFrule, Bool.and_eq_true] at hwf
      simp only [ruleLoop]
      exact ih _ _ _ _ hwf.2
    case silent_modifier =>
      simp only [WFrule, Bool.and_eq_true] at hwf
      simp only [ruleLoop]
      exact ih _ _ _ _ hwf.2
    case atomic_modifier =>
      simp only [WFrule, Bool.and_eq_true] at hwf
      simp only [ruleLoop]
      exact ih _ _ _ _ hwf.2
    case compound_atomic_modifier =>
      simp only [WFrule, Bool.and_eq_true] at hwf
      simp only [ruleLoop]
      exact ih _ _ _ _ hwf.2
    case non_atomic_modifier =>
      simp only [WFrule, Bool.and_eq_true] at hwf
      simp only [ruleLoop]
      exact ih _ _ _ _ hwf.2
    case opening_brace =>
      simp only [WFrule, Bool.and_eq_true] at hwf
      simp only [ruleLoop]
      exact ih _ _ _ _ hwf.2
    case closing_brace =>
      simp only [WFrule, Bool.and_eq_true] at hwf
      simp only [ruleLoop]
      exact ih _ _ _ _ hwf.2
    all_goals simp only [WFrule, Bool.false_and] at hwf
    all_goals exact Bool.noConfusion hwf

/-- On a well-formed rule body, `make_rule` never hits a panic. -/
theorem make_rule_isSome (ident : String) (ps : List Pair)
    (h : WFrule ps = true) : (make_rule ident ps).isSome = true := by
  unfold make_rule
  have hr := ruleLoop_isSome ps [] [] ident [] h
  rw [Option.isSome_iff_exists] at hr
  obtain ⟨r, hrr⟩ := hr
  rw [hrr]
  simp

/-- On well-formed top-level pairs, the top-level loop never hits a
panic. -/
theorem topLoop_isSome (ps : List Pair) : ∀ (nodes : List Node)
    (ws : List String), WFtop ps = true →
    (topLoop ps nodes ws).isSome = true := by
  induction ps with
  | nil => intro nodes ws _; simp [topLoop]
  | cons p rest ih =>
    obtain ⟨r, s, i⟩ := p
    intro nodes ws hwf
    cases r
    case grammar_rule =>
      simp only [WFtop, Bool.and_eq_true] at hwf
      obtain ⟨hinner, hrest2⟩ := hwf
      rcases i with _ | ⟨⟨ri, si, ii⟩, more⟩
      · simp at hinner
      · cases ri
        case line_doc =>
          simp only [topLoop]
          exact ih _ _ hrest2
        case identifier =>
          simp only [topLoop]
          have hinner2 : WFrule more = true := by simpa using hinner
          have hmr := make_rule_isSome si more hinner2
          rw [Option.isSome_iff_exists] at hmr
          obtain ⟨nw, hmr⟩ := hmr
          rw [hmr]
          exact ih _ _ hrest2
        all_goals simp at hinner
    case grammar_doc =>
      simp only [WFtop, Bool.and_eq_true] at hwf
      simp only [topLoop]
      exact ih _ _ hwf.2
    case EOI =>
      simp only [WFtop, Bool.and_eq_true] at hwf
      simp only [topLoop]
      exact ih _ _ hwf.2
    all_goals simp only [WFtop, Bool.false_and] at hwf
    all_goals exact Bool.noConfusion hwf

/-- C8: the transformation engine never rejects a successfully parsed
input — for every input the parser accepts whose parse tree is well-formed
per the grammar's own guarantees, `generate_diagram` returns `Ok` with a
diagram and a (possibly empty) warning list, and in particular returns no
error of its own. -/
theorem generate_diagram_ok_on_parsed
    (parse : String → Except String (List Pair)) (input : String)
    (pairs : List Pair) (hok : parse input = .ok pairs)
    (hwf : WFtop pairs = true) :
    (∃ d ws, generate_diagram parse input = some (.ok (d, ws)))
  ∧ ∀ e, generate_diagram parse input ≠ some (.error e) := by
  have hp := topLoop_isSome pairs [] [] hwf
  rw [Option.isSome_iff_exists] at hp
  obtain ⟨⟨nodes, ws⟩, hpl⟩ := hp
  have heq2 : processTopLevel pairs = some (.VerticalGrid nodes, ws) := by
    unfold processTopLevel
    rw [hpl]
  have heq : generate_diagram parse input
      = some (.ok (Diagram.with_default_css (.VerticalGrid nodes), ws)) := by
    unfold generate_diagram
    rw [hok]
    show (match processTopLevel pairs with
        | none => none
        | some (root, ws2) => some (Except.ok (Diagram.with_default_css root, ws2)))
      = _
    rw [heq2]
  refine ⟨⟨Diagram.with_default_css (.VerticalGrid nodes), ws, heq⟩, ?_⟩
  intro e he
  rw [heq] at he
  simp at he

/-- Witness for C8 at a parser accepting a one-rule grammar. -/
theorem generate_diagram_ok_on_parsed_witness :
    (∃ d ws, generate_diagram (fun _ => .ok digitsParse) "digits" = some (.ok (d, ws)))
  ∧ ∀ e, generate_diagram (fun _ => .ok digitsParse) "digits" ≠ some (.error e) :=
  generate_diagram_ok_on_parsed (fun _ => .ok digitsParse) "digits"
    digitsParse rfl (by simp [WFtop, WFrule, WFexpr, WFterm, WFrepeat, digitsParse])

/-! ## Claim C9: the rule builder's output shape -/

/-- Consecutive modifier pairs only append their parenthesized tags to the
display name under construction. -/
theorem ruleLoop_mods (mods : List Pair)
    (hm : ∀ p ∈ mods, (modifierTag p.rule).isSome = true) :
    ∀ (k : List Pair) (grid seq : List Node) (ident : String) (ws : List String),
    ruleLoop (mods ++ k) grid seq ident ws
      = ruleLoop k grid seq (ident ++ modTags mods) ws := by
  induction mods with
  | nil =>
    intro k grid seq ident ws
    simp [modTags, String.append_empty]
  | cons p rest ih =>
    obtain ⟨r, s, i⟩ := p
    have hr : (modifierTag r).isSome = true := by
      have := hm ⟨r, s, i⟩ (List.mem_cons_self _ _)
      simpa [Pair.rule] using this
    have hrest : ∀ p ∈ rest, (modifierTag p.rule).isSome = true :=
      fun p hp => hm p (List.mem_cons_of_mem _ hp)
    intro k grid seq ident ws
    cases r
    case silent_modifier =>
      simp only [List.cons_append, List.append_eq, ruleLoop]
      rw [ih hrest]
      congr 1
      simp [modTags, modifierTag, Pair.rule, String.append_assoc]
    case atomic_modifier =>
      simp only [List.cons_append, List.append_eq, ruleLoop]
      rw [ih hrest]
      congr 1
      simp [modTags, modifierTag, Pair.rule, String.append_assoc]
    case compound_atomic_modifier =>
      simp only [List.cons_append, List.append_eq, ruleLoop]
      rw [ih hrest]
      congr 1
      simp [modTags, modifierTag, Pair.rule, String.append_assoc]
    case non_atomic_modifier =>
      simp only [List.cons_append, List.append_eq, ruleLoop]
      rw [ih hrest]
      congr 1
      simp [modTags, modifierTag, Pair.rule, String.append_assoc]
    all_goals exact absurd hr (by simp [modifierTag])

/-- C9: for every grammar rule (assignment operator, modifiers, then the
braced body), `make_rule` produces
`VerticalGrid([Comment(display_name), Sequence([SimpleStart, expr, SimpleEnd])])`,
the display name being the declared name with one parenthesized tag per
modifier; and a whole grammar holding a single rule with a literal-string
body becomes that rule's two-level stack with the literal as a `Terminal`
and no warnings. -/
theorem make_rule_shape (ident : String) (mods : List Pair)
    (hm : ∀ p ∈ mods, (modifierTag p.rule).isSome = true)
    (sa s1 s2 s3 : String) (ia i1 i3 : List Pair) (e : List Pair)
    (expr : Node) (ws : List String) (he : make_expr e = some (expr, ws)) :
    make_rule ident (⟨.assignment_operator, sa, ia⟩ :: mods ++
        [⟨.opening_brace, s1, i1⟩, ⟨.expression, s2, e⟩, ⟨.closing_brace, s3, i3⟩])
      = some (.VerticalGrid [.Comment (ident ++ modTags mods),
          .Sequence [.SimpleStart, expr, .SimpleEnd]], ws)
  ∧ ∀ (name lit gs st : String),
      processTopLevel [⟨.grammar_rule, gs, [⟨.identifier, name, []⟩,
          ⟨.assignment_operator, sa, []⟩, ⟨.opening_brace, s1, []⟩,
          ⟨.expression, s2, [⟨.term, st, [⟨.string, lit, []⟩]⟩]⟩,
          ⟨.closing_brace, s3, []⟩]⟩]
        = some (.VerticalGrid [.VerticalGrid [.Comment name,
            .Sequence [.SimpleStart, .Terminal lit, .SimpleEnd]]], []) := by
  constructor
  · unfold make_rule
    simp only [ruleLoop, List.append_eq]
    rw [ruleLoop_mods mods hm]
    simp only [ruleLoop]
    rw [he]
    simp [ruleLoop]
  · intro name lit gs st
    simp [processTopLevel, topLoop, make_rule, ruleLoop, make_expr, exprLoop,
      termLoop, annotateLookahead, finishExpr, flattenChoice, modTags,
      String.append_empty]

/-- Witness for C9 at a silent rule with a literal-string body. -/
theorem make_rule_shape_witness :
    make_rule "greeting" (⟨.assignment_operator, "=", []⟩ ::
        [⟨.silent_modifier, "_", []⟩] ++
        [⟨.opening_brace, "", []⟩,
         ⟨.expression, "", [⟨.term, "", [⟨.string, "hi", []⟩]⟩]⟩,
         ⟨.closing_brace, "", []⟩])
      = some (.VerticalGrid [.Comment ("greeting" ++ modTags [⟨.silent_modifier, "_", []⟩]),
          .Sequence [.SimpleStart, .Terminal "hi", .SimpleEnd]], []) :=
  (make_rule_shape "greeting" [⟨.silent_modifier, "_", []⟩]
    (by simp [modifierTag, Pair.rule]) "=" "" "" "" [] [] []
    [⟨.term, "", [⟨.string, "hi", []⟩]⟩] (.Terminal "hi") []
    (by simp [make_expr, exprLoop, termLoop, annotateLookahead, finishExpr,
      flattenChoice])).1

/-! ## Claim C2: the digits grammar end to end -/

/-- C2: for the modelled parse tree of the grammar whose single rule is
digits with body char-range 0-to-9 followed by postfix one-or-more, the
rule's body is `SimpleStart, Repeat(Terminal("0..9"), Empty), SimpleEnd`:
the char-range primary becomes a `Terminal` leaf labeled 0..9 and the
postfix one-or-more operator wraps it in `Repeat(inner, Empty)`. -/
theorem digits_rule_shape :
    processTopLevel digitsParse
      = some (.VerticalGrid [.VerticalGrid [.Comment "digits",
          .Sequence [.SimpleStart, .Repeat (.Terminal "0..9") .Empty,
            .SimpleEnd]]], []) := by
  simp [digitsParse, processTopLevel, topLoop, make_rule, ruleLoop, make_expr,
    exprLoop, termLoop, annotateLookahead, finishExpr, flattenChoice]

end PestRailroad
